import Mathlib

/-!
Verification of `src/mlpack/core/math/random.hpp`: the shared pseudo-random
generator wrappers and the distinct-sample routine `ObtainDistinctSamples`.

The shared generator (`randGen` together with `randUniformDist`, a uniform
real distribution on `[0, 1)`) is modelled as a stream of rational variates
plus a position: drawing from the distribution reads the variate at the
current position and advances the position by one.  The contract of the
distribution — every variate lies in `[0, 1)` — is the predicate
`ValidStream`.  Machine doubles are modelled as rationals; `arma::uvec` /
`arma::Col<size_t>` vectors are modelled as `List Nat` and the `arma::find`
primitive as a filter over the index range.
-/

namespace Mlpack

/-- State of the process-wide generator `randGen`: the infinite stream of
uniform variates it will produce, and the number already consumed. -/
structure RNG where
  stream : Nat → ℚ
  pos : Nat

/-- Contract of `randUniformDist(0.0, 1.0)`: every variate is in `[0, 1)`. -/
def ValidStream (s : Nat → ℚ) : Prop := ∀ n, 0 ≤ s n ∧ s n < 1

/-- Model of `Random()`: one draw `randUniformDist(randGen)` — returns the variate and
the advanced generator state. -/
def Random (g : RNG) : ℚ × RNG := (g.stream g.pos, ⟨g.stream, g.pos + 1⟩)

/-- Model of `RandInt(hiExclusive)`: `(int) std::floor((double) hiExclusive *
randUniformDist(randGen))`. -/
def RandInt (hiExclusive : Nat) (g : RNG) : Int × RNG :=
  (Int.floor ((hiExclusive : ℚ) * (Random g).1), (Random g).2)

/-- Model of `RandomSeed(seed)`: re-initializes the shared generator; the seed is cast
to 32 bits (`randGen.seed((uint32_t) seed)`).  `engine` abstracts the mt19937
engine, mapping a 32-bit seed to the stream of variates it generates. -/
def RandomSeed (engine : Nat → Nat → ℚ) (seed : Nat) : RNG :=
  ⟨engine (seed % 2 ^ 32), 0⟩

/-- Model of `arma::find(samples > 0)`: indices (ascending) whose entry is positive. -/
def armaFind (samples : List Nat) : List Nat :=
  (List.range samples.length).filter (fun i => 0 < samples.getD i 0)

/-- Model of `arma::uvec::set_size(n)`: reallocate to length `n`; contents are not
specified (modelled as keeping a prefix and padding with zeros — the fill
loop of the dense regime overwrites every slot anyway). -/
def set_size (v : List Nat) (n : Nat) : List Nat :=
  v.take n ++ List.replicate (n - v.length) 0

/-- The sparse-regime draw loop:
`for (i = 0; i < maxNumSamples; ++i) samples[(size_t) RandInt(rangeSize)]++`. -/
def drawLoop (rangeSize : Nat) : Nat → List Nat → RNG → List Nat × RNG
  | 0, samples, g => (samples, g)
  | n + 1, samples, g =>
    let idx := ((RandInt rangeSize g).1).toNat
    drawLoop rangeSize n (samples.set idx (samples.getD idx 0 + 1)) (RandInt rangeSize g).2

/-- Model of `ObtainDistinctSamples(loInclusive, hiExclusive, maxNumSamples,
distinctSamples)`.  The output vector is an explicit argument (C++ passes it
by reference); the result is the final vector together with the final
generator state. -/
def ObtainDistinctSamples (loInclusive hiExclusive maxNumSamples : Nat)
    (distinctSamples : List Nat) (g : RNG) : List Nat × RNG :=
  let samplesRangeSize := hiExclusive - loInclusive
  if samplesRangeSize > maxNumSamples then
    let dl := drawLoop samplesRangeSize maxNumSamples
      (List.replicate samplesRangeSize 0) g
    let found := armaFind dl.1
    (if 0 < loInclusive then found.map (· + loInclusive) else found, dl.2)
  else
    ((List.range samplesRangeSize).foldl
      (fun v i => v.set i (loInclusive + i))
      (set_size distinctSamples samplesRangeSize), g)

/-- Spec-side description of the sparse-regime draws: `maxNumSamples`
independent uniform integer draws in `[0, rangeSize)`, the `i`-th using the
`i`-th unconsumed variate. -/
def drawsList (rangeSize k : Nat) (g : RNG) : List Nat :=
  (List.range k).map
    (fun i => ((RandInt rangeSize ⟨g.stream, g.pos + i⟩).1).toNat)

/-! ## Basic lemmas about the generator and the draw loop -/

theorem RandInt_fst (hi : Nat) (g : RNG) :
    (RandInt hi g).1 = Int.floor ((hi : ℚ) * g.stream g.pos) := rfl

theorem RandInt_snd (hi : Nat) (g : RNG) :
    (RandInt hi g).2 = ⟨g.stream, g.pos + 1⟩ := rfl

theorem RandInt_nonneg (hi : Nat) (g : RNG) (h0 : 0 ≤ g.stream g.pos) :
    0 ≤ (RandInt hi g).1 := by
  rw [RandInt_fst, Int.floor_nonneg]
  exact mul_nonneg (by positivity) h0

theorem RandInt_lt (hi : Nat) (g : RNG) (hhi : 0 < hi)
    (h1 : g.stream g.pos < 1) : (RandInt hi g).1 < (hi : Int) := by
  rw [RandInt_fst, Int.floor_lt]
  push_cast
  calc (hi : ℚ) * g.stream g.pos < (hi : ℚ) * 1 :=
        mul_lt_mul_of_pos_left h1 (by exact_mod_cast hhi)
    _ = (hi : ℚ) := mul_one _

theorem RandInt_toNat_lt (hi : Nat) (g : RNG) (hhi : 0 < hi)
    (h1 : g.stream g.pos < 1) : ((RandInt hi g).1).toNat < hi := by
  rw [Int.toNat_lt' hhi.ne']
  exact RandInt_lt hi g hhi h1

theorem drawLoop_zero (r : Nat) (c : List Nat) (g : RNG) :
    drawLoop r 0 c g = (c, g) := rfl

theorem drawLoop_succ (r n : Nat) (c : List Nat) (g : RNG) :
    drawLoop r (n + 1) c g =
      drawLoop r n
        (c.set ((RandInt r g).1).toNat (c.getD ((RandInt r g).1).toNat 0 + 1))
        ⟨g.stream, g.pos + 1⟩ := rfl

theorem drawLoop_length (r n : Nat) : ∀ (c : List Nat) (g : RNG),
    (drawLoop r n c g).1.length = c.length := by
  induction n with
  | zero => intro c g; rfl
  | succ n ih =>
    intro c g
    rw [drawLoop_succ, ih, List.length_set]

theorem drawLoop_state (r n : Nat) : ∀ (c : List Nat) (g : RNG),
    (drawLoop r n c g).2 = ⟨g.stream, g.pos + n⟩ := by
  induction n with
  | zero => intro c g; rfl
  | succ n ih =>
    intro c g
    rw [drawLoop_succ, ih]
    simp [Nat.add_comm, Nat.add_assoc, Nat.add_left_comm]

theorem drawsList_zero (r : Nat) (g : RNG) : drawsList r 0 g = [] := rfl

theorem drawsList_succ (r n : Nat) (g : RNG) :
    drawsList r (n + 1) g =
      ((RandInt r g).1).toNat :: drawsList r n ⟨g.stream, g.pos + 1⟩ := by
  unfold drawsList
  rw [List.range_succ_eq_map, List.map_cons, List.map_map]
  refine congrArg₂ _ (by simp [RandInt_fst]) ?_
  refine List.map_congr_left fun i _ => ?_
  simp only [Function.comp_apply, RandInt_fst, Nat.succ_eq_add_one]
  rw [show g.pos + (i + 1) = g.pos + 1 + i from by omega]

theorem drawsList_length (r k : Nat) (g : RNG) :
    (drawsList r k g).length = k := by
  simp [drawsList]

theorem drawsList_mem_lt (r k : Nat) (hr : 0 < r) (g : RNG)
    (hs : ValidStream g.stream) :
    ∀ i ∈ drawsList r k g, i < r := by
  intro i hi
  simp only [drawsList, List.mem_map, List.mem_range] at hi
  obtain ⟨j, -, rfl⟩ := hi
  exact RandInt_toNat_lt r ⟨g.stream, g.pos + j⟩ hr (hs (g.pos + j)).2

/-- The `getD` of a zero-filled buffer is always `0`. -/
theorem getD_replicate_zero (r i : Nat) :
    (List.replicate r (0 : Nat)).getD i 0 = 0 := by
  rw [List.getD_eq_getElem?_getD, List.getElem?_replicate]
  by_cases h : i < r <;> simp [h]

theorem getD_set_self (c : List Nat) (i v : Nat) (h : i < c.length) :
    (c.set i v).getD i 0 = v := by
  rw [List.getD_eq_getElem?_getD, List.getElem?_set_eq_of_lt _ h]
  rfl

theorem getD_set_ne (c : List Nat) (i j v : Nat) (h : i ≠ j) :
    (c.set i v).getD j 0 = c.getD j 0 := by
  rw [List.getD_eq_getElem?_getD, List.getElem?_set_ne h,
    ← List.getD_eq_getElem?_getD]

/-! ## Sparse regime: counters record exactly the drawn offsets -/

/-- After the draw loop, a counter is positive iff it was positive initially
or its offset was drawn. -/
theorem drawLoop_getD_pos (r : Nat) (hr : 0 < r) (n : Nat) :
    ∀ (c : List Nat) (g : RNG), ValidStream g.stream → c.length = r → ∀ i,
      (0 < (drawLoop r n c g).1.getD i 0 ↔
        0 < c.getD i 0 ∨ i ∈ drawsList r n g) := by
  induction n with
  | zero =>
    intro c g _ _ i
    simp [drawLoop_zero, drawsList_zero]
  | succ n ih =>
    intro c g hs hc i
    have hidx : ((RandInt r g).1).toNat < c.length := by
      rw [hc]; exact RandInt_toNat_lt r g hr (hs g.pos).2
    rw [drawLoop_succ, drawsList_succ,
      ih _ ⟨g.stream, g.pos + 1⟩ hs (by rw [List.length_set, hc])]
    rw [List.mem_cons]
    by_cases hieq : i = ((RandInt r g).1).toNat
    · subst hieq
      rw [getD_set_self _ _ _ hidx]
      simp
    · rw [getD_set_ne _ _ _ _ fun h => hieq h.symm]
      constructor
      · rintro (h | h)
        · exact Or.inl h
        · exact Or.inr (Or.inr h)
      · rintro (h | h | h)
        · exact Or.inl h
        · exact absurd h hieq
        · exact Or.inr h

/-- The sparse regime's `arma::find(samples > 0)` returns exactly the offsets
hit by the draws, ascending. -/
theorem armaFind_drawLoop (r k : Nat) (hr : 0 < r) (g : RNG)
    (hs : ValidStream g.stream) :
    armaFind (drawLoop r k (List.replicate r 0) g).1 =
      (List.range r).filter (fun i => i ∈ drawsList r k g) := by
  unfold armaFind
  rw [drawLoop_length, List.length_replicate]
  refine List.filter_congr fun i _ => ?_
  rw [decide_eq_decide,
    drawLoop_getD_pos r hr k _ g hs (List.length_replicate r 0) i,
    getD_replicate_zero]
  simp

/-! ## Dense regime: the fill loop overwrites the whole buffer -/

/-- Writing `f i` into slot `i` for `i = 0, ..., n-1` replaces the prefix of
the buffer by `map f (range n)` (clipped at the buffer length) and keeps the
tail beyond `n`. -/
theorem foldl_set_range (f : Nat → Nat) : ∀ (n : Nat) (l : List Nat),
    (List.range n).foldl (fun v i => v.set i (f i)) l =
      (List.range (min n l.length)).map f ++ l.drop n := by
  intro n
  induction n with
  | zero => intro l; simp
  | succ n ih =>
    intro l
    rw [List.range_succ, List.foldl_append, ih]
    simp only [List.foldl_cons, List.foldl_nil]
    by_cases hn : n < l.length
    · have hmin : min n l.length = n := min_eq_left (Nat.le_of_lt hn)
      have hmin' : min (n + 1) l.length = n + 1 := min_eq_left hn
      rw [hmin, hmin', List.set_append, List.length_map, List.length_range]
      rw [if_neg (lt_irrefl n), Nat.sub_self, List.drop_eq_getElem_cons hn]
      rw [List.set_cons_zero, List.range_succ, List.map_append]
      simp
    · have hle : l.length ≤ n := Nat.le_of_not_lt hn
      have hmin : min n l.length = l.length := min_eq_right hle
      have hmin' : min (n + 1) l.length = l.length :=
        min_eq_right (Nat.le_succ_of_le hle)
      rw [hmin, hmin', List.drop_eq_nil_of_le hle,
        List.drop_eq_nil_of_le (Nat.le_succ_of_le hle), List.append_nil,
        List.set_eq_of_length_le]
      rw [List.length_map, List.length_range]
      exact hle

theorem length_set_size (v : List Nat) (n : Nat) :
    (set_size v n).length = n := by
  simp [set_size]
  omega

/-- The dense-regime branch produces `map (lo + ·) (range r)` whatever the
prior contents of the output vector. -/
theorem dense_fill (lo r : Nat) (v : List Nat) :
    (List.range r).foldl (fun w i => w.set i (lo + i)) (set_size v r) =
      (List.range r).map (fun i => lo + i) := by
  rw [foldl_set_range, length_set_size, min_self,
    List.drop_eq_nil_of_le (le_of_eq (length_set_size v r)), List.append_nil]

/-! ## Closed forms for the two regimes -/

theorem obtain_dense_eq (lo hi k : Nat) (v : List Nat) (g : RNG)
    (h : hi - lo ≤ k) :
    ObtainDistinctSamples lo hi k v g =
      ((List.range (hi - lo)).map (fun i => lo + i), g) := by
  simp only [ObtainDistinctSamples]
  rw [if_neg (by omega), dense_fill]

theorem obtain_sparse_eq (lo hi k : Nat) (v : List Nat) (g : RNG)
    (hs : ValidStream g.stream) (h : k < hi - lo) :
    ObtainDistinctSamples lo hi k v g =
      (((List.range (hi - lo)).filter
          (fun o => o ∈ drawsList (hi - lo) k g)).map (fun o => o + lo),
        ⟨g.stream, g.pos + k⟩) := by
  have hr : 0 < hi - lo := by omega
  simp only [ObtainDistinctSamples]
  rw [if_pos (by omega), armaFind_drawLoop _ _ hr g hs, drawLoop_state]
  by_cases hlo : 0 < lo
  · rw [if_pos hlo]
  · rw [if_neg hlo]
    have hz : lo = 0 := by omega
    subst hz
    simp

/-- Whatever the regime, the result is an ascending list of in-range offsets,
each shifted by `loInclusive`. -/
theorem result_shape (lo hi k : Nat) (v : List Nat) (g : RNG) :
    ∃ base : List Nat,
      List.Pairwise (· < ·) base ∧ (∀ o ∈ base, o < hi - lo) ∧
      (ObtainDistinctSamples lo hi k v g).1 = base.map (fun o => o + lo) := by
  by_cases hsp : hi - lo ≤ k
  · refine ⟨List.range (hi - lo), List.pairwise_lt_range _, ?_, ?_⟩
    · intro o ho; exact List.mem_range.mp ho
    · rw [obtain_dense_eq lo hi k v g hsp]
      exact List.map_congr_left fun i _ => Nat.add_comm lo i
  · refine ⟨armaFind (drawLoop (hi - lo) k
      (List.replicate (hi - lo) 0) g).1, ?_, ?_, ?_⟩
    · exact (List.pairwise_lt_range _).filter _
    · intro o ho
      have hlen : (drawLoop (hi - lo) k (List.replicate (hi - lo) 0) g).1.length
          = hi - lo := by
        rw [drawLoop_length, List.length_replicate]
      rw [← hlen]
      exact List.mem_range.mp ((List.mem_filter.mp ho).1)
    · simp only [ObtainDistinctSamples]
      rw [if_pos (by omega)]
      by_cases hlo : 0 < lo
      · rw [if_pos hlo]
      · rw [if_neg hlo]
        have hz : lo = 0 := by omega
        subst hz
        simp

/-! ## The claims -/

/-- C1: Dense regime exactness — whenever `hiExclusive ≥ loInclusive` and
`rangeSize = hiExclusive - loInclusive ≤ maxNumSamples`, the output is
exactly the ascending sequence `loInclusive, …, hiExclusive - 1` (length
`rangeSize`) and the generator state is untouched (no randomness consumed). -/
theorem dense_regime_exactness (lo hi k : Nat) (v : List Nat) (g : RNG)
    (hrange : lo ≤ hi) (hdense : hi - lo ≤ k) :
    (ObtainDistinctSamples lo hi k v g).1 =
      (List.range (hi - lo)).map (fun i => lo + i) ∧
    (ObtainDistinctSamples lo hi k v g).2 = g := by
  rw [obtain_dense_eq lo hi k v g hdense]
  exact ⟨rfl, rfl⟩

theorem dense_regime_exactness_witness :
    (5 ≤ 8 ∧ 8 - 5 ≤ 10) ∧
    ((ObtainDistinctSamples 5 8 10 [] ⟨fun _ => 0, 0⟩).1 =
        (List.range (8 - 5)).map (fun i => 5 + i) ∧
      (ObtainDistinctSamples 5 8 10 [] ⟨fun _ => 0, 0⟩).2 = ⟨fun _ => 0, 0⟩) :=
  ⟨⟨by decide, by decide⟩,
    dense_regime_exactness 5 8 10 [] ⟨fun _ => 0, 0⟩ (by decide) (by decide)⟩

/-- C2: Sparse regime algorithm — whenever `hiExclusive ≥ loInclusive` and
`rangeSize > maxNumSamples`, the routine makes exactly `maxNumSamples`
uniform integer draws in `[0, rangeSize)` (advancing the generator once per
draw), and the output is the ascending list of the distinct drawn offsets
(the offsets whose counter ended non-zero), each shifted by `loInclusive`. -/
theorem sparse_regime_algorithm (lo hi k : Nat) (v : List Nat) (g : RNG)
    (hrange : lo ≤ hi) (hs : ValidStream g.stream) (hsparse : k < hi - lo) :
    (ObtainDistinctSamples lo hi k v g).1 =
      ((List.range (hi - lo)).filter
        (fun o => o ∈ drawsList (hi - lo) k g)).map (fun o => o + lo) ∧
    (ObtainDistinctSamples lo hi k v g).2 = ⟨g.stream, g.pos + k⟩ := by
  rw [obtain_sparse_eq lo hi k v g hs hsparse]
  exact ⟨rfl, rfl⟩

theorem sparse_regime_algorithm_witness :
    (1 ≤ 4 ∧ ValidStream (fun _ => (0 : ℚ)) ∧ 2 < 4 - 1) ∧
    ((ObtainDistinctSamples 1 4 2 [7] ⟨fun _ => 0, 0⟩).1 =
        ((List.range (4 - 1)).filter
          (fun o => o ∈ drawsList (4 - 1) 2 ⟨fun _ => 0, 0⟩)).map
          (fun o => o + 1) ∧
      (ObtainDistinctSamples 1 4 2 [7] ⟨fun _ => 0, 0⟩).2 =
        ⟨fun _ => 0, 0 + 2⟩) :=
  ⟨⟨by decide, fun _ => ⟨le_refl 0, by norm_num⟩, by decide⟩,
    sparse_regime_algorithm 1 4 2 [7] ⟨fun _ => 0, 0⟩ (by decide)
      (fun _ => ⟨le_refl 0, by norm_num⟩) (by decide)⟩

/-- C3: Upper bound on count — for `hiExclusive ≥ loInclusive` the number of
returned values is at most `min maxNumSamples rangeSize`, in both regimes. -/
theorem upper_bound_on_count (lo hi k : Nat) (v : List Nat) (g : RNG)
    (hrange : lo ≤ hi) (hs : ValidStream g.stream) :
    (ObtainDistinctSamples lo hi k v g).1.length ≤ min k (hi - lo) := by
  by_cases hsp : k < hi - lo
  · rw [obtain_sparse_eq lo hi k v g hs hsp]
    dsimp only
    rw [List.length_map]
    refine le_min ?_ ?_
    · have hnd : ((List.range (hi - lo)).filter
          (fun o => o ∈ drawsList (hi - lo) k g)).Nodup :=
        (List.nodup_range _).filter _
      have hsub : ((List.range (hi - lo)).filter
          (fun o => o ∈ drawsList (hi - lo) k g)) ⊆ drawsList (hi - lo) k g := by
        intro x hx
        exact of_decide_eq_true (List.mem_filter.mp hx).2
      calc ((List.range (hi - lo)).filter
            (fun o => o ∈ drawsList (hi - lo) k g)).length
          ≤ (drawsList (hi - lo) k g).length := (hnd.subperm hsub).length_le
        _ = k := drawsList_length _ _ _
    · calc ((List.range (hi - lo)).filter
            (fun o => o ∈ drawsList (hi - lo) k g)).length
          ≤ (List.range (hi - lo)).length := List.length_filter_le _ _
        _ = hi - lo := List.length_range _
  · rw [obtain_dense_eq lo hi k v g (by omega)]
    dsimp only
    rw [List.length_map, List.length_range]
    exact le_min (by omega) (le_refl _)

theorem upper_bound_on_count_witness :
    (0 ≤ 9 ∧ ValidStream (fun _ => (0 : ℚ))) ∧
    (ObtainDistinctSamples 0 9 4 [] ⟨fun _ => 0, 0⟩).1.length ≤ min 4 (9 - 0) :=
  ⟨⟨by decide, fun _ => ⟨le_refl 0, by norm_num⟩⟩,
    upper_bound_on_count 0 9 4 [] ⟨fun _ => 0, 0⟩ (by decide)
      (fun _ => ⟨le_refl 0, by norm_num⟩)⟩

/-- C4: Bounds — for `hiExclusive ≥ loInclusive`, every returned value `x`
satisfies `loInclusive ≤ x < hiExclusive`. -/
theorem result_values_in_range (lo hi k : Nat) (v : List Nat) (g : RNG)
    (hrange : lo ≤ hi) :
    ∀ x ∈ (ObtainDistinctSamples lo hi k v g).1, lo ≤ x ∧ x < hi := by
  obtain ⟨base, -, hmem, heq⟩ := result_shape lo hi k v g
  rw [heq]
  intro x hx
  obtain ⟨o, ho, rfl⟩ := List.mem_map.mp hx
  have := hmem o ho
  omega

theorem result_values_in_range_witness :
    5 ≤ 8 ∧
    ∀ x ∈ (ObtainDistinctSamples 5 8 2 [] ⟨fun _ => 0, 0⟩).1,
      5 ≤ x ∧ x < 8 :=
  ⟨by decide, result_values_in_range 5 8 2 [] ⟨fun _ => 0, 0⟩ (by decide)⟩

/-- C5: Ascending order and no duplicates — for `hiExclusive ≥ loInclusive`
the returned sequence is strictly increasing, hence has no repeats. -/
theorem result_sorted_and_nodup (lo hi k : Nat) (v : List Nat) (g : RNG)
    (hrange : lo ≤ hi) :
    List.Pairwise (· < ·) (ObtainDistinctSamples lo hi k v g).1 ∧
    (ObtainDistinctSamples lo hi k v g).1.Nodup := by
  obtain ⟨base, hpw, -, heq⟩ := result_shape lo hi k v g
  rw [heq]
  have hpw' : List.Pairwise (· < ·) (base.map (fun o => o + lo)) :=
    List.pairwise_map.mpr (hpw.imp fun h => Nat.add_lt_add_right h lo)
  exact ⟨hpw', hpw'.imp Nat.ne_of_lt⟩

theorem result_sorted_and_nodup_witness :
    0 ≤ 6 ∧
    (List.Pairwise (· < ·) (ObtainDistinctSamples 0 6 9 [3, 3] ⟨fun _ => 0, 0⟩).1 ∧
      (ObtainDistinctSamples 0 6 9 [3, 3] ⟨fun _ => 0, 0⟩).1.Nodup) :=
  ⟨by decide, result_sorted_and_nodup 0 6 9 [3, 3] ⟨fun _ => 0, 0⟩ (by decide)⟩

/-- C6: Emptiness characterization — for `hiExclusive ≥ loInclusive` the
result is empty iff `maxNumSamples = 0` or `rangeSize = 0`. -/
theorem result_empty_iff (lo hi k : Nat) (v : List Nat) (g : RNG)
    (hrange : lo ≤ hi) (hs : ValidStream g.stream) :
    ((ObtainDistinctSamples lo hi k v g).1 = [] ↔ k = 0 ∨ hi - lo = 0) := by
  by_cases hsp : k < hi - lo
  · rw [obtain_sparse_eq lo hi k v g hs hsp]
    dsimp only
    rw [List.map_eq_nil_iff]
    constructor
    · intro hnil
      left
      by_contra hk
      obtain ⟨m, rfl⟩ := Nat.exists_eq_succ_of_ne_zero hk
      have hr : 0 < hi - lo := by omega
      have hidx : ((RandInt (hi - lo) g).1).toNat < hi - lo :=
        RandInt_toNat_lt _ g hr (hs g.pos).2
      have hmem : ((RandInt (hi - lo) g).1).toNat ∈
          drawsList (hi - lo) (m + 1) g := by
        rw [drawsList_succ]
        exact List.mem_cons_self _ _
      have := List.filter_eq_nil_iff.mp hnil _ (List.mem_range.mpr hidx)
      exact this (decide_eq_true hmem)
    · rintro (rfl | hr0)
      · refine List.filter_eq_nil_iff.mpr fun a _ => ?_
        simp [drawsList_zero]
      · omega
  · rw [obtain_dense_eq lo hi k v g (by omega)]
    dsimp only
    rw [List.map_eq_nil_iff, List.range_eq_nil]
    omega

theorem result_empty_iff_witness :
    (2 ≤ 7 ∧ ValidStream (fun _ => (0 : ℚ))) ∧
    ((ObtainDistinctSamples 2 7 3 [] ⟨fun _ => 0, 0⟩).1 = [] ↔
      3 = 0 ∨ 7 - 2 = 0) :=
  ⟨⟨by decide, fun _ => ⟨le_refl 0, by norm_num⟩⟩,
    result_empty_iff 2 7 3 [] ⟨fun _ => 0, 0⟩ (by decide)
      (fun _ => ⟨le_refl 0, by norm_num⟩)⟩

/-- C7: Determinism under fixed seed — two calls with identical arguments
made from generators seeded with the same effective (32-bit) seed value
produce identical results. -/
theorem determinism_under_fixed_seed (engine : Nat → Nat → ℚ)
    (seed₁ seed₂ lo hi k : Nat) (v : List Nat)
    (hseed : seed₁ % 2 ^ 32 = seed₂ % 2 ^ 32) :
    ObtainDistinctSamples lo hi k v (RandomSeed engine seed₁) =
      ObtainDistinctSamples lo hi k v (RandomSeed engine seed₂) := by
  unfold RandomSeed
  rw [hseed]

theorem determinism_under_fixed_seed_witness :
    1 % 2 ^ 32 = (1 + 2 ^ 32) % 2 ^ 32 ∧
    ObtainDistinctSamples 0 5 2 [] (RandomSeed (fun _ _ => 0) 1) =
      ObtainDistinctSamples 0 5 2 [] (RandomSeed (fun _ _ => 0) (1 + 2 ^ 32)) :=
  ⟨(Nat.add_mod_right 1 (2 ^ 32)).symm,
    determinism_under_fixed_seed (fun _ _ => 0) 1 (1 + 2 ^ 32) 0 5 2 []
      (Nat.add_mod_right 1 (2 ^ 32)).symm⟩

/-- C8: Uniform integer generator contract — for `hiExclusive > 0` and a
variate `u ∈ [0, 1)`, `RandInt(hiExclusive) = ⌊hiExclusive · u⌋` lies in
`[0, hiExclusive)`. -/
theorem randInt_contract (hi : Nat) (g : RNG) (hhi : 0 < hi)
    (h0 : 0 ≤ g.stream g.pos) (h1 : g.stream g.pos < 1) :
    0 ≤ (RandInt hi g).1 ∧ (RandInt hi g).1 < (hi : Int) :=
  ⟨RandInt_nonneg hi g h0, RandInt_lt hi g hhi h1⟩

theorem randInt_contract_witness :
    (0 < 2 ∧ (0 : ℚ) ≤ (fun _ => (0 : ℚ)) 0 ∧ ((fun _ => (0 : ℚ)) 0 : ℚ) < 1) ∧
    (0 ≤ (RandInt 2 ⟨fun _ => 0, 0⟩).1 ∧ (RandInt 2 ⟨fun _ => 0, 0⟩).1 < (2 : Int)) :=
  ⟨⟨by decide, le_refl 0, by norm_num⟩,
    randInt_contract 2 ⟨fun _ => 0, 0⟩ (by decide) (le_refl 0) (by norm_num)⟩

/-- C9: Generator-state frame effect — the dense regime leaves the generator
untouched; the sparse regime advances it exactly once per draw, i.e. exactly
`maxNumSamples` times. -/
theorem generator_state_frame (lo hi k : Nat) (v : List Nat) (g : RNG) :
    (ObtainDistinctSamples lo hi k v g).2 =
      if hi - lo ≤ k then g else ⟨g.stream, g.pos + k⟩ := by
  by_cases hsp : hi - lo ≤ k
  · rw [obtain_dense_eq lo hi k v g hsp, if_pos hsp]
  · rw [if_neg hsp]
    simp only [ObtainDistinctSamples]
    rw [if_pos (by omega)]
    exact drawLoop_state _ _ _ _

/-- C10: Output-parameter noninterference — the result depends only on the
bounds, the sample budget and the generator state, never on the prior
contents or size of the output vector. -/
theorem out_param_noninterference (lo hi k : Nat) (v₁ v₂ : List Nat)
    (g : RNG) :
    ObtainDistinctSamples lo hi k v₁ g = ObtainDistinctSamples lo hi k v₂ g := by
  by_cases hsp : hi - lo ≤ k
  · rw [obtain_dense_eq lo hi k v₁ g hsp, obtain_dense_eq lo hi k v₂ g hsp]
  · have hgt : hi - lo > k := by omega
    simp only [ObtainDistinctSamples]
    rw [if_pos hgt, if_pos hgt]

end Mlpack
